import Mathlib

/-!
Verification of the Jsonify-rs document store (src/main.rs).

The Rust program stores a JSON document as a `HashSet<(String, JsonifyValue)>`
of (dotted-path, typed leaf) pairs.  We embed the program shallowly:

* `JValue` models `serde_json::Value`.  JSON numbers are modelled as integers
  and string literals without escape sequences; every input exercised by the
  claims lies in this fragment.
* `parseJson` models `serde_json::from_str`, including its failure on
  malformed input and the last-wins, sorted-key behaviour of the default
  `serde_json::Map` (a `BTreeMap`).
* The `HashSet` is modelled as a duplicate-free list in insertion order;
  `HashSet::insert` adds an element only when the exact pair is absent.  The
  iteration order of a Rust `HashSet` is unspecified; the model fixes it to
  insertion order, and every refutation below that involves several entries
  is stated through order-independent membership facts as well.
* `Jsonify::parse_json` recursively re-serialises each child value with
  `value.to_string()` and re-parses it; by serde's round-trip guarantee this
  yields the child value itself, so `flattenValue` recurses on the child
  directly.
-/

mutual
inductive JValue where
  | str (s : String)
  | num (n : Int)
  | bool (b : Bool)
  | null
  | arr (elems : JArr)
  | obj (fields : JObj)
deriving DecidableEq, Repr

inductive JArr where
  | nil
  | cons (v : JValue) (rest : JArr)
deriving DecidableEq, Repr

inductive JObj where
  | nil
  | cons (k : String) (v : JValue) (rest : JObj)
deriving DecidableEq, Repr
end

/-! ## A model of `serde_json::from_str` -/

def isWs (c : Char) : Bool :=
  c = ' ' || c = '\n' || c = '\t' || c = '\r'

def skipWs : List Char → List Char
  | [] => []
  | c :: rest => if isWs c then skipWs rest else c :: rest

def isDigitCh (c : Char) : Bool :=
  '0' ≤ c && c ≤ '9'

/-- Read a run of decimal digits, returning their value and the rest. -/
def readDigits : List Char → Nat → Nat × List Char
  | c :: rest, acc =>
    if isDigitCh c then readDigits rest (acc * 10 + (c.toNat - '0'.toNat))
    else (acc, c :: rest)
  | [], acc => (acc, [])

/-- Read the body of a string literal up to the closing quote.  Escape
    sequences are outside the modelled fragment (a backslash fails). -/
def readStr : List Char → Option (List Char × List Char)
  | [] => none
  | c :: rest =>
    if c = '"' then some ([], rest)
    else if c = '\\' then none
    else match readStr rest with
      | some (body, rem) => some (c :: body, rem)
      | none => none

/-- Lexicographic comparison of strings by character code, the order of
    Rust `String` keys in a `BTreeMap`. -/
def charsLt : List Char → List Char → Bool
  | [], [] => false
  | [], _ :: _ => true
  | _ :: _, [] => false
  | c :: cs, d :: ds =>
    if c.toNat < d.toNat then true
    else if c.toNat = d.toNat then charsLt cs ds
    else false

/-- Sorted insert into an object, overwriting an equal key: models
    `BTreeMap::insert`, so duplicate keys in the input text are last-wins. -/
def mapInsert (k : String) (v : JValue) : JObj → JObj
  | .nil => .cons k v .nil
  | .cons k' v' rest =>
    if k = k' then .cons k v rest
    else if charsLt k.data k'.data then .cons k v (.cons k' v' rest)
    else .cons k' v' (mapInsert k v rest)

mutual
def parseVal : Nat → List Char → Option (JValue × List Char)
  | 0, _ => none
  | fuel + 1, cs =>
    match skipWs cs with
    | [] => none
    | c :: rest =>
    if c = 'n' then
      match rest with
      | 'u' :: 'l' :: 'l' :: rem => some (.null, rem)
      | _ => none
    else if c = 't' then
      match rest with
      | 'r' :: 'u' :: 'e' :: rem => some (.bool true, rem)
      | _ => none
    else if c = 'f' then
      match rest with
      | 'a' :: 'l' :: 's' :: 'e' :: rem => some (.bool false, rem)
      | _ => none
    else if c = '"' then
      match readStr rest with
      | some (body, rem) => some (.str ⟨body⟩, rem)
      | none => none
    else if c = '-' then
      match rest with
      | d :: rest' =>
        if isDigitCh d then
          let (n, rem) := readDigits rest' (d.toNat - '0'.toNat)
          some (.num (-(n : Int)), rem)
        else none
      | [] => none
    else if isDigitCh c then
      let (n, rem) := readDigits rest (c.toNat - '0'.toNat)
      some (.num (n : Int), rem)
    else if c = '[' then
      match skipWs rest with
      | ']' :: rem => some (.arr .nil, rem)
      | other => parseArr fuel other
    else if c = '\x7b' then
      match skipWs rest with
      | '\x7d' :: rem => some (.obj .nil, rem)
      | other => parseObj fuel other .nil
    else none

def parseArr : Nat → List Char → Option (JValue × List Char)
  | 0, _ => none
  | fuel + 1, cs =>
    match parseVal fuel cs with
    | none => none
    | some (v, rem) =>
      match skipWs rem with
      | ',' :: rem' =>
        match parseArr fuel rem' with
        | some (.arr es, rem'') => some (.arr (.cons v es), rem'')
        | _ => none
      | ']' :: rem' => some (.arr (.cons v .nil), rem')
      | _ => none

def parseObj : Nat → List Char → JObj → Option (JValue × List Char)
  | 0, _, _ => none
  | fuel + 1, cs, acc =>
    match skipWs cs with
    | '"' :: cs' =>
      match readStr cs' with
      | none => none
      | some (key, rem) =>
        match skipWs rem with
        | ':' :: rem' =>
          match parseVal fuel rem' with
          | none => none
          | some (v, rem'') =>
            let acc' := mapInsert ⟨key⟩ v acc
            match skipWs rem'' with
            | ',' :: rem3 => parseObj fuel rem3 acc'
            | '\x7d' :: rem3 => some (.obj acc', rem3)
            | _ => none
        | _ => none
    | _ => none
end

/-- Model of `serde_json::from_str::<Value>`: parse one JSON value and
    require that only whitespace follows. -/
def parseJson (s : String) : Option JValue :=
  match parseVal (s.length + 1) s.data with
  | some (v, rem) => if (skipWs rem).isEmpty then some v else none
  | none => none

/-! ## Decimal formatting of array indices (Rust `Display` for `usize`) -/

def natDigitsAux : Nat → Nat → List Char
  | 0, _ => []
  | fuel + 1, n =>
    if n < 10 then [Nat.digitChar n]
    else natDigitsAux fuel (n / 10) ++ [Nat.digitChar (n % 10)]

def natDigits (n : Nat) : List Char :=
  natDigitsAux (n + 1) n

def natToString (n : Nat) : String :=
  ⟨natDigits n⟩

/-! ## The data model of src/main.rs -/

/-- `struct JsonifyValue`: a leaf value together with its type-tag string. -/
structure JsonifyValue where
  value : JValue
  value_type : String
deriving DecidableEq, Repr

/-- `struct Jsonify`: the `HashSet<(String, JsonifyValue)>`, modelled as a
    duplicate-free list in insertion order. -/
structure Jsonify where
  values : List (String × JsonifyValue)
deriving DecidableEq, Repr

/-- `HashSet::insert`: add the pair only when the exact pair is absent. -/
def hsInsert (s : List (String × JsonifyValue)) (x : String × JsonifyValue) :
    List (String × JsonifyValue) :=
  if x ∈ s then s else s ++ [x]

/-- The type-tag match appearing in `parse_json`, `replace` and
    `add_to_json`. -/
def typeTag : JValue → String
  | .str _ => "String"
  | .num _ => "Number"
  | .bool _ => "Bool"
  | .null => "Null"
  | _ => "Unknown"

/-- A non-container value (string, number, boolean or null). -/
def isScalar : JValue → Bool
  | .arr _ => false
  | .obj _ => false
  | _ => true

mutual
/-- The body of `Jsonify::parse_json` after the `from_str` call: walk the
    value, extending the prefix with `.key` for object fields and `[i]` for
    array elements, and insert a tagged leaf at every scalar position. -/
def flattenValue (v : JValue) (pre : String) (hs : List (String × JsonifyValue)) :
    List (String × JsonifyValue) :=
  match v with
  | .obj fields => flattenObj fields pre hs
  | .arr elems => flattenArr elems 0 pre hs
  | _ => hsInsert hs (pre, ⟨v, typeTag v⟩)

def flattenObj (fields : JObj) (pre : String) (hs : List (String × JsonifyValue)) :
    List (String × JsonifyValue) :=
  match fields with
  | .nil => hs
  | .cons k v rest =>
    let newPre := if pre.isEmpty then k else pre ++ "." ++ k
    flattenObj rest pre (flattenValue v newPre hs)

def flattenArr (elems : JArr) (i : Nat) (pre : String) (hs : List (String × JsonifyValue)) :
    List (String × JsonifyValue) :=
  match elems with
  | .nil => hs
  | .cons v rest =>
    flattenArr rest (i + 1) pre (flattenValue v (pre ++ "[" ++ natToString i ++ "]") hs)
end

/-- `Jsonify::parse_json`: `from_str(json).unwrap_or(Value::Null)`, then
    flatten.  A parse failure silently becomes `Null`. -/
def parse_json (json : String) (pre : String) (hs : List (String × JsonifyValue)) :
    List (String × JsonifyValue) :=
  flattenValue ((parseJson json).getD .null) pre hs

/-- `Jsonify::new`. -/
def Jsonify.new (json : String) : Jsonify :=
  ⟨parse_json json "" []⟩

/-- `Jsonify::get_value`. -/
def Jsonify.get_value (d : Jsonify) (key : String) : Option JValue :=
  (d.values.find? (fun e => e.1 == key)).map (fun e => e.2.value)

/-- `Jsonify::replace`: find an entry with the key; if found, remove that
    pair and insert the key with the new value and a recomputed tag. -/
def Jsonify.replace (d : Jsonify) (key : String) (new_value : JValue) : Bool × Jsonify :=
  match d.values.find? (fun e => e.1 == key) with
  | some entry =>
    (true, ⟨hsInsert (d.values.erase entry) (key, ⟨new_value, typeTag new_value⟩)⟩)
  | none => (false, d)

/-- `Jsonify::add_to_json`: a plain `HashSet::insert` of the tagged pair. -/
def Jsonify.add_to_json (d : Jsonify) (key : String) (value : JValue) : Jsonify :=
  ⟨hsInsert d.values (key, ⟨value, typeTag value⟩)⟩

/-- `Jsonify::remove_from_json`: find an entry with the key and remove that
    exact pair. -/
def Jsonify.remove_from_json (d : Jsonify) (key : String) : Bool × Jsonify :=
  match d.values.find? (fun e => e.1 == key) with
  | some entry => (true, ⟨d.values.erase entry⟩)
  | none => (false, d)

/-- `Jsonify::has_key`. -/
def Jsonify.has_key (d : Jsonify) (key : String) : Bool :=
  d.values.any (fun e => e.1 == key)

/-- `Jsonify::get_keys`. -/
def Jsonify.get_keys (d : Jsonify) : List String :=
  d.values.map (fun e => e.1)

/-- `Jsonify::merge_json`: flatten the other text into a fresh set, then
    insert every resulting pair into the existing set. -/
def Jsonify.merge_json (d : Jsonify) (other : String) : Jsonify :=
  ⟨(parse_json other "" []).foldl hsInsert d.values⟩

/-! ## Lemmas about the HashSet model -/

theorem mem_hsInsert {s : List (String × JsonifyValue)} {x y : String × JsonifyValue} :
    y ∈ hsInsert s x ↔ y ∈ s ∨ y = x := by
  by_cases hx : x ∈ s
  · simp only [hsInsert, if_pos hx]
    constructor
    · exact Or.inl
    · rintro (h | rfl) <;> assumption
  · simp [hsInsert, if_neg hx]

theorem mem_foldl_hsInsert_of_mem {l : List (String × JsonifyValue)}
    {acc : List (String × JsonifyValue)} {x : String × JsonifyValue} (hx : x ∈ acc) :
    x ∈ l.foldl hsInsert acc := by
  induction l generalizing acc with
  | nil => simpa using hx
  | cons y ys ih => exact ih (mem_hsInsert.mpr (Or.inl hx))

theorem mem_foldl_hsInsert {l : List (String × JsonifyValue)}
    {acc : List (String × JsonifyValue)} {x : String × JsonifyValue}
    (hx : x ∈ l.foldl hsInsert acc) : x ∈ acc ∨ x ∈ l := by
  induction l generalizing acc with
  | nil => exact Or.inl (by simpa using hx)
  | cons y ys ih =>
    rcases ih (by simpa using hx) with h | h
    · rcases mem_hsInsert.mp h with h' | rfl
      · exact Or.inl h'
      · exact Or.inr (List.mem_cons_self _ _)
    · exact Or.inr (List.mem_cons_of_mem _ h)

theorem foldl_hsInsert_eq_append :
    ∀ (l acc : List (String × JsonifyValue)), l.Nodup → (∀ x ∈ l, x ∉ acc) →
      l.foldl hsInsert acc = acc ++ l := by
  intro l
  induction l with
  | nil => simp
  | cons y ys ih =>
    intro acc hnd hdis
    have hy : y ∉ acc := hdis y (List.mem_cons_self _ _)
    rw [List.foldl_cons]
    have h1 : hsInsert acc y = acc ++ [y] := by simp [hsInsert, hy]
    rw [h1, ih _ (List.nodup_cons.mp hnd).2]
    · simp
    · intro x hx
      simp only [List.mem_append, List.mem_singleton]
      rintro (h | rfl)
      · exact hdis x (List.mem_cons_of_mem _ hx) h
      · exact (List.nodup_cons.mp hnd).1 hx

theorem countP_erase {l : List (String × JsonifyValue)} {e : String × JsonifyValue}
    {p : (String × JsonifyValue) → Bool} (he : e ∈ l) (hp : p e = true) :
    (l.erase e).countP p + 1 = l.countP p := by
  induction l with
  | nil => cases he
  | cons a as ih =>
    rw [List.erase_cons]
    by_cases hae : a = e
    · subst hae
      simp [List.countP_cons, hp]
    · have : (a == e) = false := by simpa using hae
      rw [if_neg (by simp [hae])]
      have he' : e ∈ as := by
        rcases List.mem_cons.mp he with rfl | h
        · exact absurd rfl hae
        · exact h
      rw [List.countP_cons, List.countP_cons, ← ih he']
      omega

theorem has_key_iff_find? {d : Jsonify} {k : String} :
    d.has_key k = true ↔ (d.values.find? (fun e => e.1 == k)).isSome = true := by
  simp [Jsonify.has_key, List.any_eq_true, List.find?_isSome]

/-! ## The entries produced by flattening, as a pure list -/

mutual
def entriesV : JValue → String → List (String × JsonifyValue)
  | .obj fs, pre => entriesO fs pre
  | .arr es, pre => entriesA es 0 pre
  | v, pre => [(pre, ⟨v, typeTag v⟩)]

def entriesO : JObj → String → List (String × JsonifyValue)
  | .nil, _ => []
  | .cons k v rest, pre =>
    entriesV v (if pre.isEmpty then k else pre ++ "." ++ k) ++ entriesO rest pre

def entriesA : JArr → Nat → String → List (String × JsonifyValue)
  | .nil, _, _ => []
  | .cons v rest, i, pre =>
    entriesV v (pre ++ "[" ++ natToString i ++ "]") ++ entriesA rest (i + 1) pre
end

mutual
theorem flattenValue_eq (v : JValue) (pre : String) (hs : List (String × JsonifyValue)) :
    flattenValue v pre hs = (entriesV v pre).foldl hsInsert hs := by
  cases v with
  | obj fs => simpa [flattenValue, entriesV] using flattenObj_eq fs pre hs
  | arr es => simpa [flattenValue, entriesV] using flattenArr_eq es 0 pre hs
  | str s => simp [flattenValue, entriesV]
  | num n => simp [flattenValue, entriesV]
  | bool b => simp [flattenValue, entriesV]
  | null => simp [flattenValue, entriesV]

theorem flattenObj_eq (fs : JObj) (pre : String) (hs : List (String × JsonifyValue)) :
    flattenObj fs pre hs = (entriesO fs pre).foldl hsInsert hs := by
  cases fs with
  | nil => simp [flattenObj, entriesO]
  | cons k v rest =>
    rw [flattenObj, entriesO, List.foldl_append, ← flattenValue_eq, ← flattenObj_eq]

theorem flattenArr_eq (es : JArr) (i : Nat) (pre : String)
    (hs : List (String × JsonifyValue)) :
    flattenArr es i pre hs = (entriesA es i pre).foldl hsInsert hs := by
  cases es with
  | nil => simp [flattenArr, entriesA]
  | cons v rest =>
    rw [flattenArr, entriesA, List.foldl_append, ← flattenValue_eq, ← flattenArr_eq]
end

/-! ## Counting scalar leaves -/

mutual
def leafCount : JValue → Nat
  | .obj fs => leafCountO fs
  | .arr es => leafCountA es
  | _ => 1

def leafCountO : JObj → Nat
  | .nil => 0
  | .cons _ v rest => leafCount v + leafCountO rest

def leafCountA : JArr → Nat
  | .nil => 0
  | .cons v rest => leafCount v + leafCountA rest
end

mutual
theorem length_entriesV (v : JValue) (pre : String) :
    (entriesV v pre).length = leafCount v := by
  cases v with
  | obj fs => simpa [entriesV, leafCount] using length_entriesO fs pre
  | arr es => simpa [entriesV, leafCount] using length_entriesA es 0 pre
  | str s => simp [entriesV, leafCount]
  | num n => simp [entriesV, leafCount]
  | bool b => simp [entriesV, leafCount]
  | null => simp [entriesV, leafCount]

theorem length_entriesO (fs : JObj) (pre : String) :
    (entriesO fs pre).length = leafCountO fs := by
  cases fs with
  | nil => simp [entriesO, leafCountO]
  | cons k v rest =>
    simp [entriesO, leafCountO, length_entriesV, length_entriesO]

theorem length_entriesA (es : JArr) (i : Nat) (pre : String) :
    (entriesA es i pre).length = leafCountA es := by
  cases es with
  | nil => simp [entriesA, leafCountA]
  | cons v rest =>
    simp [entriesA, leafCountA, length_entriesV, length_entriesA]
end

/-! ## Properties of decimal index formatting -/

theorem natDigitsAux_irrel (n : Nat) : ∀ fuel, n < fuel → natDigitsAux fuel n = natDigits n := by
  induction n using Nat.strong_induction_on with
  | _ n ih =>
    intro fuel hf
    match fuel, hf with
    | f + 1, hf =>
      by_cases h10 : n < 10
      · simp [natDigitsAux, natDigits, h10]
      · have hdiv : n / 10 < n := Nat.div_lt_self (by omega) (by omega)
        rw [natDigitsAux, if_neg h10, ih (n / 10) hdiv f (by omega)]
        conv_rhs => rw [natDigits, natDigitsAux, if_neg h10]
        rw [ih (n / 10) hdiv n (by omega)]

theorem natDigits_eq (n : Nat) :
    natDigits n = if n < 10 then [Nat.digitChar n]
      else natDigits (n / 10) ++ [Nat.digitChar (n % 10)] := by
  by_cases h10 : n < 10
  · simp [natDigits, natDigitsAux, h10]
  · have hdiv : n / 10 < n := Nat.div_lt_self (by omega) (by omega)
    conv_lhs => rw [natDigits, natDigitsAux, if_neg h10]
    rw [if_neg h10, natDigitsAux_irrel (n / 10) n (by omega)]

theorem natDigits_ne_nil (n : Nat) : natDigits n ≠ [] := by
  rw [natDigits_eq]
  split <;> simp

theorem digitChar_inj : ∀ a, a < 10 → ∀ b, b < 10 →
    Nat.digitChar a = Nat.digitChar b → a = b := by decide

theorem digitChar_notin : ∀ a, a < 10 →
    Nat.digitChar a ≠ ']' ∧ Nat.digitChar a ≠ '.' ∧ Nat.digitChar a ≠ '[' := by decide

theorem mem_natDigits (n : Nat) : ∀ c ∈ natDigits n, c ≠ ']' ∧ c ≠ '.' ∧ c ≠ '[' := by
  induction n using Nat.strong_induction_on with
  | _ n ih =>
    intro c hc
    rw [natDigits_eq] at hc
    by_cases h10 : n < 10
    · rw [if_pos h10] at hc
      simp only [List.mem_singleton] at hc
      subst hc
      exact digitChar_notin n h10
    · rw [if_neg h10] at hc
      rcases List.mem_append.mp hc with h | h
      · exact ih (n / 10) (Nat.div_lt_self (by omega) (by omega)) c h
      · simp only [List.mem_singleton] at h
        subst h
        exact digitChar_notin (n % 10) (Nat.mod_lt _ (by omega))

theorem natDigits_injective : ∀ n m, natDigits n = natDigits m → n = m := by
  intro n
  induction n using Nat.strong_induction_on with
  | _ n ih =>
    intro m h
    by_cases hn : n < 10 <;> by_cases hm : m < 10
    · rw [natDigits_eq n, natDigits_eq m, if_pos hn, if_pos hm] at h
      simp only [List.cons.injEq, and_true] at h
      exact digitChar_inj n hn m hm h
    · rw [natDigits_eq n, natDigits_eq m, if_pos hn, if_neg hm] at h
      have hlen := congrArg List.length h
      have hpos : 0 < (natDigits (m / 10)).length :=
        List.length_pos.mpr (natDigits_ne_nil (m / 10))
      simp only [List.length_singleton, List.length_append] at hlen
      omega
    · rw [natDigits_eq n, natDigits_eq m, if_neg hn, if_pos hm] at h
      have hlen := congrArg List.length h
      have hpos : 0 < (natDigits (n / 10)).length :=
        List.length_pos.mpr (natDigits_ne_nil (n / 10))
      simp only [List.length_singleton, List.length_append] at hlen
      omega
    · rw [natDigits_eq n, natDigits_eq m, if_neg hn, if_neg hm] at h
      obtain ⟨h1, h2⟩ := List.append_inj' h (by simp)
      have hdiv : n / 10 < n := Nat.div_lt_self (by omega) (by omega)
      have e1 : n / 10 = m / 10 := ih (n / 10) hdiv (m / 10) h1
      have e2 : n % 10 = m % 10 := by
        apply digitChar_inj _ (Nat.mod_lt _ (by omega)) _ (Nat.mod_lt _ (by omega))
        simpa using h2
      omega

/-! ## Relative paths of scalar leaves -/

mutual
def relV : JValue → List String
  | .obj fs => relO fs
  | .arr es => relA es 0
  | _ => [""]

def relO : JObj → List String
  | .nil => []
  | .cons k v rest => (relV v).map (fun r => "." ++ k ++ r) ++ relO rest

def relA : JArr → Nat → List String
  | .nil, _ => []
  | .cons v rest, i =>
    (relV v).map (fun r => "[" ++ natToString i ++ "]" ++ r) ++ relA rest (i + 1)
end

/-- The fields of an object, as an ordinary list. -/
def fieldsOf : JObj → List (String × JValue)
  | .nil => []
  | .cons k v rest => (k, v) :: fieldsOf rest

def keysOf : JObj → List String
  | .nil => []
  | .cons k _ rest => k :: keysOf rest

/-- A key that is nonempty and free of the path-separator characters. -/
def goodKey (k : String) : Bool :=
  !k.isEmpty && k.data.all (fun c => !(c = '.') && !(c = '['))

def allDistinct : List String → Bool
  | [] => true
  | k :: rest => !rest.contains k && allDistinct rest

mutual
/-- Every object key, at every level, is nonempty, free of the separator
    characters, and distinct from its siblings. -/
def niceKeys : JValue → Bool
  | .obj fs => allDistinct (keysOf fs) && niceKeysO fs
  | .arr es => niceKeysA es
  | _ => true

def niceKeysO : JObj → Bool
  | .nil => true
  | .cons k v rest => goodKey k && niceKeys v && niceKeysO rest

def niceKeysA : JArr → Bool
  | .nil => true
  | .cons v rest => niceKeys v && niceKeysA rest
end

theorem goodKey_spec {k : String} (h : goodKey k = true) :
    k.data ≠ [] ∧ ∀ c ∈ k.data, c ≠ '.' ∧ c ≠ '[' := by
  simp only [goodKey, Bool.and_eq_true, Bool.not_eq_true', List.all_eq_true] at h
  obtain ⟨h1, h2⟩ := h
  constructor
  · intro he
    have hk : k = "" := String.ext (by simpa using he)
    rw [hk] at h1
    exact absurd h1 (by decide)
  · intro c hc
    have hc' := h2 c hc
    simp only [Bool.and_eq_true, Bool.not_eq_true'] at hc'
    exact ⟨by simpa using hc'.1, by simpa using hc'.2⟩

def elemsOf : JArr → List JValue
  | .nil => []
  | .cons v rest => v :: elemsOf rest

theorem fields_good : ∀ {fs : JObj}, niceKeysO fs = true →
    ∀ k v, (k, v) ∈ fieldsOf fs → goodKey k = true ∧ niceKeys v = true
  | .nil, _, k, v, hm => by simp [fieldsOf] at hm
  | .cons k' v' rest, h, k, v, hm => by
    simp only [niceKeysO, Bool.and_eq_true] at h
    rcases List.mem_cons.mp hm with hm | hm
    · cases hm
      exact ⟨h.1.1, h.1.2⟩
    · exact fields_good h.2 k v hm

theorem mem_keysOf : ∀ {fs : JObj} {k : String} {v : JValue},
    (k, v) ∈ fieldsOf fs → k ∈ keysOf fs
  | .nil, k, v, h => by simp [fieldsOf] at h
  | .cons k' v' rest, k, v, h => by
    rcases List.mem_cons.mp h with hm | hm
    · cases hm
      exact List.mem_cons_self _ _
    · exact List.mem_cons_of_mem _ (mem_keysOf hm)

theorem allDistinct_spec {k : String} {rest : List String}
    (h : allDistinct (k :: rest) = true) : k ∉ rest ∧ allDistinct rest = true := by
  simp only [allDistinct, Bool.and_eq_true, Bool.not_eq_true'] at h
  exact ⟨by simpa using h.1, h.2⟩

/-! ## Inversion lemmas for relative paths -/

theorem mem_relO : ∀ {fs : JObj} {r : String}, r ∈ relO fs →
    ∃ k v t, (k, v) ∈ fieldsOf fs ∧ t ∈ relV v ∧ r = "." ++ k ++ t
  | .nil, r, h => by simp [relO] at h
  | .cons k v rest, r, h => by
    rcases List.mem_append.mp h with hm | hm
    · obtain ⟨t, ht, rfl⟩ := List.mem_map.mp hm
      exact ⟨k, v, t, List.mem_cons_self _ _, ht, rfl⟩
    · obtain ⟨k', v', t, hf, ht, rfl⟩ := mem_relO hm
      exact ⟨k', v', t, List.mem_cons_of_mem _ hf, ht, rfl⟩

theorem mem_relA : ∀ {es : JArr} {i : Nat} {r : String}, r ∈ relA es i →
    ∃ j v t, i ≤ j ∧ v ∈ elemsOf es ∧ t ∈ relV v ∧
      r = "[" ++ natToString j ++ "]" ++ t
  | .nil, i, r, h => by simp [relA] at h
  | .cons v rest, i, r, h => by
    rcases List.mem_append.mp h with hm | hm
    · obtain ⟨t, ht, rfl⟩ := List.mem_map.mp hm
      exact ⟨i, v, t, le_refl i, List.mem_cons_self _ _, ht, rfl⟩
    · obtain ⟨j, v', t, hj, hv, ht, rfl⟩ := mem_relA hm
      exact ⟨j, v', t, by omega, List.mem_cons_of_mem _ hv, ht, rfl⟩

theorem mem_relV_shape {v : JValue} {r : String} (h : r ∈ relV v) :
    r.data = [] ∨ ∃ c t, r.data = c :: t ∧ (c = '.' ∨ c = '[') := by
  cases v with
  | obj fs =>
    obtain ⟨k, v', t, _, _, rfl⟩ := mem_relO (by simpa [relV] using h)
    right
    exact ⟨'.', k.data ++ t.data, by simp [String.data_append], Or.inl rfl⟩
  | arr es =>
    obtain ⟨j, v', t, _, _, _, rfl⟩ := mem_relA (by simpa [relV] using h)
    right
    exact ⟨'[', natDigits j ++ ']' :: t.data, by simp [String.data_append, natToString],
      Or.inr rfl⟩
  | str s => simp [relV] at h; subst h; left; rfl
  | num n => simp [relV] at h; subst h; left; rfl
  | bool b => simp [relV] at h; subst h; left; rfl
  | null => simp [relV] at h; subst h; left; rfl

/-! ## Injectivity of path segment encoding -/

theorem strAppend_left_inj (a : String) : Function.Injective (fun r => a ++ r) := by
  intro r1 r2 h
  apply String.ext
  have hd := congrArg String.data h
  simp only [String.data_append] at hd
  exact List.append_cancel_left hd

theorem key_append_inj {k1 k2 r1 r2 : List Char}
    (g1 : ∀ c ∈ k1, c ≠ '.' ∧ c ≠ '[') (g2 : ∀ c ∈ k2, c ≠ '.' ∧ c ≠ '[')
    (s1 : r1 = [] ∨ ∃ c t, r1 = c :: t ∧ (c = '.' ∨ c = '['))
    (s2 : r2 = [] ∨ ∃ c t, r2 = c :: t ∧ (c = '.' ∨ c = '['))
    (heq : k1 ++ r1 = k2 ++ r2) : k1 = k2 ∧ r1 = r2 := by
  rcases List.append_eq_append_iff.mp heq with ⟨a, ha1, ha2⟩ | ⟨a, ha1, ha2⟩
  · cases a with
    | nil =>
      constructor
      · simpa using ha1.symm
      · simpa using ha2
    | cons c a' =>
      exfalso
      have hc : c ∈ k2 := by
        rw [ha1]
        exact List.mem_append.mpr (Or.inr (List.mem_cons_self _ _))
      rcases s1 with rfl | ⟨c', t, he, hsep⟩
      · simp at ha2
      · rw [he] at ha2
        have hcc : c' = c := by
          have := ha2
          simp only [List.cons_append] at this
          exact (List.cons.injEq _ _ _ _ ▸ this).1
        rcases hsep with rfl | rfl
        · exact (g2 c hc).1 (by rw [← hcc])
        · exact (g2 c hc).2 (by rw [← hcc])
  · cases a with
    | nil =>
      constructor
      · simpa using ha1
      · simpa using ha2.symm
    | cons c a' =>
      exfalso
      have hc : c ∈ k1 := by
        rw [ha1]
        exact List.mem_append.mpr (Or.inr (List.mem_cons_self _ _))
      rcases s2 with rfl | ⟨c', t, he, hsep⟩
      · simp at ha2
      · rw [he] at ha2
        have hcc : c' = c := by
          have := ha2
          simp only [List.cons_append] at this
          exact (List.cons.injEq _ _ _ _ ▸ this).1
        rcases hsep with rfl | rfl
        · exact (g1 c hc).1 (by rw [← hcc])
        · exact (g1 c hc).2 (by rw [← hcc])

theorem bracket_inj : ∀ (d1 d2 r1 r2 : List Char),
    (∀ c ∈ d1, c ≠ ']') → (∀ c ∈ d2, c ≠ ']') →
    d1 ++ ']' :: r1 = d2 ++ ']' :: r2 → d1 = d2 ∧ r1 = r2 := by
  intro d1
  induction d1 with
  | nil =>
    intro d2 r1 r2 _ h2 heq
    cases d2 with
    | nil => simpa using heq
    | cons c d2' =>
      exfalso
      simp only [List.nil_append, List.cons_append, List.cons.injEq] at heq
      exact h2 c (List.mem_cons_self _ _) heq.1.symm
  | cons c d1' ih =>
    intro d2 r1 r2 h1 h2 heq
    cases d2 with
    | nil =>
      exfalso
      simp only [List.nil_append, List.cons_append, List.cons.injEq] at heq
      exact h1 c (List.mem_cons_self _ _) heq.1
    | cons c' d2' =>
      simp only [List.cons_append, List.cons.injEq] at heq
      obtain ⟨rfl, heq'⟩ := heq
      obtain ⟨e1, e2⟩ := ih d2' r1 r2 (fun x hx => h1 x (List.mem_cons_of_mem _ hx))
        (fun x hx => h2 x (List.mem_cons_of_mem _ hx)) heq'
      exact ⟨by rw [e1], e2⟩

/-! ## Decomposing the paths produced by flattening -/

theorem str_ne_empty_of_data {s : String} (h : s.data ≠ []) : s ≠ "" := by
  intro he
  subst he
  exact h rfl

theorem isEmpty_false_of_ne {s : String} (h : s ≠ "") : s.isEmpty = false := by
  cases he : s.isEmpty
  · rfl
  · exact absurd ((String.isEmpty_iff s).mp he) h

theorem dot_pre_ne_empty (pre k : String) : pre ++ "." ++ k ≠ "" := by
  apply str_ne_empty_of_data
  have hd : (pre ++ "." ++ k).data = pre.data ++ '.' :: k.data := by
    simp [String.data_append]
  rw [hd]
  simp

theorem bracket_pre_ne_empty (pre : String) (i : Nat) :
    pre ++ "[" ++ natToString i ++ "]" ≠ "" := by
  apply str_ne_empty_of_data
  have hd : (pre ++ "[" ++ natToString i ++ "]").data
      = pre.data ++ '[' :: (natDigits i ++ [']']) := by
    simp [String.data_append, natToString]
  rw [hd]
  simp

mutual
theorem paths_entriesV (v : JValue) (pre : String) (hpre : pre ≠ "") :
    (entriesV v pre).map Prod.fst = (relV v).map (fun r => pre ++ r) := by
  cases v with
  | obj fs => simpa [entriesV, relV] using paths_entriesO fs pre hpre
  | arr es => simpa [entriesV, relV] using paths_entriesA es 0 pre
  | str s =>
    simp only [entriesV, relV, List.map_cons, List.map_nil]
    congr 1
    apply String.ext
    simp [String.data_append]
  | num n =>
    simp only [entriesV, relV, List.map_cons, List.map_nil]
    congr 1
    apply String.ext
    simp [String.data_append]
  | bool b =>
    simp only [entriesV, relV, List.map_cons, List.map_nil]
    congr 1
    apply String.ext
    simp [String.data_append]
  | null =>
    simp only [entriesV, relV, List.map_cons, List.map_nil]
    congr 1
    apply String.ext
    simp [String.data_append]

theorem paths_entriesO (fs : JObj) (pre : String) (hpre : pre ≠ "") :
    (entriesO fs pre).map Prod.fst = (relO fs).map (fun r => pre ++ r) := by
  cases fs with
  | nil => simp [entriesO, relO]
  | cons k v rest =>
    rw [entriesO, relO]
    rw [List.map_append, List.map_append, List.map_map]
    rw [isEmpty_false_of_ne hpre]
    simp only [Bool.false_eq_true, if_false]
    rw [paths_entriesV v (pre ++ "." ++ k) (dot_pre_ne_empty pre k)]
    rw [paths_entriesO rest pre hpre]
    congr 1
    apply List.map_congr_left
    intro r _
    apply String.ext
    simp [String.data_append]

theorem paths_entriesA (es : JArr) (i : Nat) (pre : String) :
    (entriesA es i pre).map Prod.fst = (relA es i).map (fun r => pre ++ r) := by
  cases es with
  | nil => simp [entriesA, relA]
  | cons v rest =>
    rw [entriesA, relA]
    rw [List.map_append, List.map_append, List.map_map]
    rw [paths_entriesV v (pre ++ "[" ++ natToString i ++ "]") (bracket_pre_ne_empty pre i)]
    rw [paths_entriesA rest (i + 1) pre]
    congr 1
    apply List.map_congr_left
    intro r _
    apply String.ext
    simp [String.data_append]
end

/-! ## Top-level paths -/

def tpathsO : JObj → List String
  | .nil => []
  | .cons k v rest => (relV v).map (fun r => k ++ r) ++ tpathsO rest

def tpaths : JValue → List String
  | .obj fs => tpathsO fs
  | .arr es => relA es 0
  | _ => [""]

theorem paths_entriesO_top : ∀ (fs : JObj), niceKeysO fs = true →
    (entriesO fs "").map Prod.fst = tpathsO fs
  | .nil, _ => by simp [entriesO, tpathsO]
  | .cons k v rest, h => by
    simp only [niceKeysO, Bool.and_eq_true] at h
    have hk : k ≠ "" := by
      apply str_ne_empty_of_data
      exact (goodKey_spec h.1.1).1
    rw [entriesO, tpathsO]
    rw [List.map_append]
    have hemp : ("" : String).isEmpty = true := rfl
    rw [hemp]
    simp only [if_true]
    rw [paths_entriesV v k hk, paths_entriesO_top rest h.2]

theorem paths_top (v : JValue) (hk : niceKeys v = true) :
    (entriesV v "").map Prod.fst = tpaths v := by
  cases v with
  | obj fs =>
    simp only [niceKeys, Bool.and_eq_true] at hk
    simpa [entriesV, tpaths] using paths_entriesO_top fs hk.2
  | arr es =>
    rw [entriesV, tpaths, paths_entriesA es 0 ""]
    have hid : (relA es 0).map (fun r => "" ++ r) = (relA es 0).map id := by
      apply List.map_congr_left
      intro r _
      apply String.ext
      simp [String.data_append]
    rw [hid, List.map_id]
  | str s => simp [entriesV, tpaths]
  | num n => simp [entriesV, tpaths]
  | bool b => simp [entriesV, tpaths]
  | null => simp [entriesV, tpaths]

/-! ## Uniqueness of relative paths -/

mutual
theorem nodup_relV (v : JValue) (h : niceKeys v = true) : (relV v).Nodup := by
  cases v with
  | obj fs =>
    simp only [niceKeys, Bool.and_eq_true] at h
    simpa [relV] using nodup_relO fs h.1 h.2
  | arr es => simpa [relV] using nodup_relA es h 0
  | str s => simp [relV]
  | num n => simp [relV]
  | bool b => simp [relV]
  | null => simp [relV]

theorem nodup_relO (fs : JObj) (hd : allDistinct (keysOf fs) = true)
    (h : niceKeysO fs = true) : (relO fs).Nodup := by
  cases fs with
  | nil => simp [relO]
  | cons k v rest =>
    rw [keysOf] at hd
    obtain ⟨hknotin, hd'⟩ := allDistinct_spec hd
    simp only [niceKeysO, Bool.and_eq_true] at h
    rw [relO]
    apply List.Nodup.append
    · exact (nodup_relV v h.1.2).map (strAppend_left_inj ("." ++ k))
    · exact nodup_relO rest hd' h.2
    · intro r hr1 hr2
      obtain ⟨t, ht, rfl⟩ := List.mem_map.mp hr1
      obtain ⟨k', v', t', hf', ht', heq⟩ := mem_relO hr2
      have hdd := congrArg String.data heq
      simp only [String.data_append, List.append_assoc, List.singleton_append] at hdd
      have htl : k.data ++ t.data = k'.data ++ t'.data := by
        have hdd' : ('.' : Char) :: (k.data ++ t.data) = '.' :: (k'.data ++ t'.data) := by
          simpa using hdd
        exact (List.cons.injEq _ _ _ _ ▸ hdd').2
      have hgk := goodKey_spec h.1.1
      have hgk' := goodKey_spec (fields_good h.2 k' v' hf').1
      obtain ⟨hkeq, -⟩ := key_append_inj hgk.2 hgk'.2
        (by
          rcases mem_relV_shape ht with hsh | ⟨c, u, hsh, hc⟩
          · exact Or.inl hsh
          · exact Or.inr ⟨c, u, hsh, hc⟩)
        (by
          rcases mem_relV_shape ht' with hsh | ⟨c, u, hsh, hc⟩
          · exact Or.inl hsh
          · exact Or.inr ⟨c, u, hsh, hc⟩)
        htl
      exact hknotin (String.ext hkeq ▸ mem_keysOf hf')

theorem nodup_relA (es : JArr) (h : niceKeysA es = true) : ∀ i : Nat, (relA es i).Nodup := by
  cases es with
  | nil => intro i; simp [relA]
  | cons v rest =>
    intro i
    simp only [niceKeysA, Bool.and_eq_true] at h
    rw [relA]
    apply List.Nodup.append
    · exact (nodup_relV v h.1).map (strAppend_left_inj ("[" ++ natToString i ++ "]"))
    · exact nodup_relA rest h.2 (i + 1)
    · intro r hr1 hr2
      obtain ⟨t, ht, rfl⟩ := List.mem_map.mp hr1
      obtain ⟨j, v', t', hj, hv', ht', heq⟩ := mem_relA hr2
      have hdd := congrArg String.data heq
      simp only [String.data_append, natToString, List.append_assoc,
        List.singleton_append] at hdd
      have htl : natDigits i ++ ']' :: t.data = natDigits j ++ ']' :: t'.data := by
        have hdd' : ('[' : Char) :: (natDigits i ++ ']' :: t.data)
            = '[' :: (natDigits j ++ ']' :: t'.data) := by
          simpa using hdd
        exact (List.cons.injEq _ _ _ _ ▸ hdd').2
      obtain ⟨hij, -⟩ := bracket_inj (natDigits i) (natDigits j) t.data t'.data
        (fun c hc => (mem_natDigits i c hc).1) (fun c hc => (mem_natDigits j c hc).1) htl
      have : i = j := natDigits_injective i j hij
      omega
end

theorem mem_tpathsO : ∀ {fs : JObj} {r : String}, r ∈ tpathsO fs →
    ∃ k v t, (k, v) ∈ fieldsOf fs ∧ t ∈ relV v ∧ r = k ++ t
  | .nil, r, h => by simp [tpathsO] at h
  | .cons k v rest, r, h => by
    rcases List.mem_append.mp h with hm | hm
    · obtain ⟨t, ht, rfl⟩ := List.mem_map.mp hm
      exact ⟨k, v, t, List.mem_cons_self _ _, ht, rfl⟩
    · obtain ⟨k', v', t, hf, ht, rfl⟩ := mem_tpathsO hm
      exact ⟨k', v', t, List.mem_cons_of_mem _ hf, ht, rfl⟩

theorem nodup_tpathsO : ∀ (fs : JObj), allDistinct (keysOf fs) = true →
    niceKeysO fs = true → (tpathsO fs).Nodup
  | .nil, _, _ => by simp [tpathsO]
  | .cons k v rest, hd, h => by
    rw [keysOf] at hd
    obtain ⟨hknotin, hd'⟩ := allDistinct_spec hd
    simp only [niceKeysO, Bool.and_eq_true] at h
    rw [tpathsO]
    apply List.Nodup.append
    · exact (nodup_relV v h.1.2).map (strAppend_left_inj k)
    · exact nodup_tpathsO rest hd' h.2
    · intro r hr1 hr2
      obtain ⟨t, ht, rfl⟩ := List.mem_map.mp hr1
      obtain ⟨k', v', t', hf', ht', heq⟩ := mem_tpathsO hr2
      have hdd := congrArg String.data heq
      simp only [String.data_append] at hdd
      have hgk := goodKey_spec h.1.1
      have hgk' := goodKey_spec (fields_good h.2 k' v' hf').1
      obtain ⟨hkeq, -⟩ := key_append_inj hgk.2 hgk'.2
        (by
          rcases mem_relV_shape ht with hsh | ⟨c, u, hsh, hc⟩
          · exact Or.inl hsh
          · exact Or.inr ⟨c, u, hsh, hc⟩)
        (by
          rcases mem_relV_shape ht' with hsh | ⟨c, u, hsh, hc⟩
          · exact Or.inl hsh
          · exact Or.inr ⟨c, u, hsh, hc⟩)
        hdd
      exact hknotin (String.ext hkeq ▸ mem_keysOf hf')

theorem nodup_tpaths (v : JValue) (hk : niceKeys v = true) : (tpaths v).Nodup := by
  cases v with
  | obj fs =>
    simp only [niceKeys, Bool.and_eq_true] at hk
    simpa [tpaths] using nodup_tpathsO fs hk.1 hk.2
  | arr es => simpa [tpaths] using nodup_relA es hk 0
  | str s => simp [tpaths]
  | num n => simp [tpaths]
  | bool b => simp [tpaths]
  | null => simp [tpaths]

/-! ## Every flattened entry is a correctly tagged scalar -/

mutual
theorem entriesV_tagged (v : JValue) (pre : String) :
    ∀ e ∈ entriesV v pre, isScalar e.2.value = true ∧ e.2.value_type = typeTag e.2.value := by
  cases v with
  | obj fs => simpa [entriesV] using entriesO_tagged fs pre
  | arr es => simpa [entriesV] using entriesA_tagged es 0 pre
  | str s => intro e he; simp [entriesV] at he; subst he; exact ⟨rfl, rfl⟩
  | num n => intro e he; simp [entriesV] at he; subst he; exact ⟨rfl, rfl⟩
  | bool b => intro e he; simp [entriesV] at he; subst he; exact ⟨rfl, rfl⟩
  | null => intro e he; simp [entriesV] at he; subst he; exact ⟨rfl, rfl⟩

theorem entriesO_tagged (fs : JObj) (pre : String) :
    ∀ e ∈ entriesO fs pre, isScalar e.2.value = true ∧ e.2.value_type = typeTag e.2.value := by
  cases fs with
  | nil => intro e he; simp [entriesO] at he
  | cons k v rest =>
    intro e he
    rcases List.mem_append.mp he with h | h
    · exact entriesV_tagged v _ e h
    · exact entriesO_tagged rest pre e h

theorem entriesA_tagged (es : JArr) (i : Nat) (pre : String) :
    ∀ e ∈ entriesA es i pre, isScalar e.2.value = true ∧ e.2.value_type = typeTag e.2.value := by
  cases es with
  | nil => intro e he; simp [entriesA] at he
  | cons v rest =>
    intro e he
    rcases List.mem_append.mp he with h | h
    · exact entriesV_tagged v _ e h
    · exact entriesA_tagged rest (i + 1) pre e h
end

theorem parse_json_tagged (s pre : String) :
    ∀ e ∈ parse_json s pre [], isScalar e.2.value = true ∧
      e.2.value_type = typeTag e.2.value := by
  intro e he
  rw [parse_json, flattenValue_eq] at he
  rcases mem_foldl_hsInsert he with h | h
  · simp at h
  · exact entriesV_tagged _ pre e h

/-- The Documents reachable through the public API when `replace` and
    `add_to_json` are only handed scalar (non-container) values. -/
inductive Reachable : Jsonify → Prop where
  | construct (s : String) : Reachable (Jsonify.new s)
  | merge (d : Jsonify) (s : String) : Reachable d → Reachable (d.merge_json s)
  | rep (d : Jsonify) (k : String) (v : JValue) : Reachable d → isScalar v = true →
      Reachable (d.replace k v).2
  | add (d : Jsonify) (k : String) (v : JValue) : Reachable d → isScalar v = true →
      Reachable (d.add_to_json k v)
  | rem (d : Jsonify) (k : String) : Reachable d → Reachable (d.remove_from_json k).2

theorem reachable_tagged {d : Jsonify} (hr : Reachable d) :
    ∀ e ∈ d.values, isScalar e.2.value = true ∧ e.2.value_type = typeTag e.2.value := by
  induction hr with
  | construct s => exact parse_json_tagged s ""
  | merge d s hd ih =>
    intro e he
    rcases mem_foldl_hsInsert he with h | h
    · exact ih e h
    · exact parse_json_tagged s "" e h
  | rep d k v hd hs ih =>
    intro e he
    cases hf : d.values.find? (fun x => x.1 == k) with
    | none =>
      rw [Jsonify.replace, hf] at he
      exact ih e he
    | some entry =>
      rw [Jsonify.replace, hf] at he
      rcases mem_hsInsert.mp he with h | rfl
      · exact ih e (List.mem_of_mem_erase h)
      · exact ⟨hs, rfl⟩
  | add d k v hd hs ih =>
    intro e he
    rcases mem_hsInsert.mp he with h | rfl
    · exact ih e h
    · exact ⟨hs, rfl⟩
  | rem d k hd ih =>
    intro e he
    cases hf : d.values.find? (fun x => x.1 == k) with
    | none =>
      rw [Jsonify.remove_from_json, hf] at he
      exact ih e he
    | some entry =>
      rw [Jsonify.remove_from_json, hf] at he
      exact ih e (List.mem_of_mem_erase he)

/-! ## Claim theorems -/

/-- C1: The claim says malformed JSON fails with a ParseError, produces no
    entries, and leaves a merged-into Document unchanged, with no silent
    substitution of Null.  The code instead calls
    `from_str(json).unwrap_or(Value::Null)`: on the unparseable text `{` the
    parser fails, construction stores the entry `"" ↦ Null`, and merging the
    same text into an existing Document inserts that entry, mutating it. -/
theorem c1_parse_failure_inserts_null :
    parseJson "\x7b" = none ∧
    (Jsonify.new "\x7b").values = [("", ⟨.null, "Null"⟩)] ∧
    ((Jsonify.new "\x7b\"a\": 1\x7d").merge_json "\x7b").values
      = [("a", ⟨.num 1, "Number"⟩), ("", ⟨.null, "Null"⟩)] ∧
    ((Jsonify.new "\x7b\"a\": 1\x7d").merge_json "\x7b").values
      ≠ (Jsonify.new "\x7b\"a\": 1\x7d").values := by decide

/-- C2: The claim says a merged-in leaf overwrites the stored leaf at the
    same path, so after merging `{"a": 1}` into a Document holding `a ↦ 0`,
    `getValue("a")` returns 1.  The store is a `HashSet` of (path, value)
    pairs, so the insert of `("a", 1)` does not remove `("a", 0)`: both
    pairs are present afterwards, and `get_value` (which returns the first
    hit in iteration order, insertion order in this model) still yields 0. -/
theorem c2_merge_does_not_overwrite :
    ("a", (⟨.num 0, "Number"⟩ : JsonifyValue))
      ∈ ((Jsonify.new "\x7b\"a\": 0\x7d").merge_json "\x7b\"a\": 1\x7d").values ∧
    ("a", (⟨.num 1, "Number"⟩ : JsonifyValue))
      ∈ ((Jsonify.new "\x7b\"a\": 0\x7d").merge_json "\x7b\"a\": 1\x7d").values ∧
    ((Jsonify.new "\x7b\"a\": 0\x7d").merge_json "\x7b\"a\": 1\x7d").get_value "a"
      = some (.num 0) := by decide

/-- C3 counterexample: on the valid input `{"a": {"b": 1}, "a.b": 2}` two
    distinct scalar-leaf positions both flatten to the path `a.b`, and on
    `{"a": {"b": 1}, "a.b": 1}` the two identical (path, leaf) pairs
    collapse to a single stored entry although the source has two scalar
    leaves. -/
theorem c3_counterexample :
    (Jsonify.new "\x7b\"a\": \x7b\"b\": 1\x7d, \"a.b\": 2\x7d").get_keys
      = ["a.b", "a.b"] ∧
    (Jsonify.new "\x7b\"a\": \x7b\"b\": 1\x7d, \"a.b\": 1\x7d").values.length = 1 ∧
    leafCount ((parseJson "\x7b\"a\": \x7b\"b\": 1\x7d, \"a.b\": 1\x7d").getD .null)
      = 2 := by decide

/-- C3 (amended): for a Document constructed from a valid JSON text in
    which every object key is nonempty and contains no `.` and no `[`
    character, no two scalar-leaf positions produce the same path and the
    number of stored entries equals the number of scalar leaves. -/
theorem c3_unique_paths (s : String) (v : JValue) (hp : parseJson s = some v)
    (hk : niceKeys v = true) :
    ((Jsonify.new s).get_keys).Nodup ∧ (Jsonify.new s).values.length = leafCount v := by
  have hpaths : (entriesV v "").map Prod.fst = tpaths v := paths_top v hk
  have hndp : ((entriesV v "").map Prod.fst).Nodup := by
    rw [hpaths]
    exact nodup_tpaths v hk
  have hne : (entriesV v "").Nodup := List.Nodup.of_map _ hndp
  have hval : (Jsonify.new s).values = entriesV v "" := by
    simp only [Jsonify.new, parse_json, hp, Option.getD_some, flattenValue_eq]
    simpa using foldl_hsInsert_eq_append (entriesV v "") [] hne (by simp)
  constructor
  · rw [Jsonify.get_keys, hval]
    exact hndp
  · rw [hval, length_entriesV]

/-- C3 witness: a concrete nested document with separator-free keys. -/
theorem c3_witness :
    parseJson "\x7b\"a\": \x7b\"b\": 1\x7d\x7d"
      = some (.obj (.cons "a" (.obj (.cons "b" (.num 1) .nil)) .nil)) ∧
    niceKeys (.obj (.cons "a" (.obj (.cons "b" (.num 1) .nil)) .nil)) = true ∧
    (((Jsonify.new "\x7b\"a\": \x7b\"b\": 1\x7d\x7d").get_keys).Nodup ∧
      (Jsonify.new "\x7b\"a\": \x7b\"b\": 1\x7d\x7d").values.length
        = leafCount (.obj (.cons "a" (.obj (.cons "b" (.num 1) .nil)) .nil))) :=
  ⟨by decide, by decide, c3_unique_paths _ _ (by decide) (by decide)⟩

/-- C4: `replace(path, v)` returns false and leaves the mapping unchanged
    when the path is absent (it never inserts); when the path is present it
    returns true and the resulting mapping is the old one with the found
    entry swapped for `(path, v)` carrying a recomputed type tag.  Stated
    for duplicate-free entry lists, which covers every value the model's
    set-insert discipline can build. -/
theorem c4_replace_swaps_or_leaves_unchanged (d : Jsonify) (k : String) (v : JValue)
    (hnd : d.values.Nodup) :
    (d.has_key k = false → d.replace k v = (false, d)) ∧
    (d.has_key k = true → (d.replace k v).1 = true ∧
      ∃ e ∈ d.values, e.1 = k ∧
        ∀ x, (x ∈ (d.replace k v).2.values ↔
          x = (k, ⟨v, typeTag v⟩) ∨ (x ∈ d.values ∧ x ≠ e))) := by
  cases hf : d.values.find? (fun x => x.1 == k) with
  | none =>
    constructor
    · intro _
      rw [Jsonify.replace, hf]
    · intro hk
      exfalso
      rw [Jsonify.has_key] at hk
      obtain ⟨e, he, hp⟩ := List.any_eq_true.mp hk
      exact List.find?_eq_none.mp hf e he hp
  | some entry =>
    have hmem : entry ∈ d.values := List.mem_of_find?_eq_some hf
    have hpk : entry.1 = k := by simpa using List.find?_some hf
    constructor
    · intro hk
      exfalso
      rw [Jsonify.has_key] at hk
      have hany : d.values.any (fun x => x.1 == k) = true :=
        List.any_eq_true.mpr ⟨entry, hmem, by simp [hpk]⟩
      rw [hany] at hk
      cases hk
    · intro _
      refine ⟨by rw [Jsonify.replace, hf], entry, hmem, hpk, ?_⟩
      intro x
      rw [Jsonify.replace, hf]
      constructor
      · intro hx
        rcases mem_hsInsert.mp hx with h | rfl
        · exact Or.inr ⟨List.mem_of_mem_erase h, (hnd.mem_erase_iff.mp h).1⟩
        · exact Or.inl rfl
      · rintro (rfl | ⟨hxd, hxe⟩)
        · exact mem_hsInsert.mpr (Or.inr rfl)
        · exact mem_hsInsert.mpr (Or.inl (hnd.mem_erase_iff.mpr ⟨hxe, hxd⟩))

/-- C4 witness: replacing a present key succeeds on a concrete Document. -/
theorem c4_witness :
    (Jsonify.new "\x7b\"a\": 1\x7d").values.Nodup ∧
    ((Jsonify.new "\x7b\"a\": 1\x7d").replace "a" (.str "x")).1 = true :=
  ⟨by decide,
    ((c4_replace_swaps_or_leaves_unchanged (Jsonify.new "\x7b\"a\": 1\x7d") "a"
      (.str "x") (by decide)).2 (by decide)).1⟩

/-- C5: The claim says `add_to_json` is an unconditional upsert leaving
    exactly one entry at the path.  Because the store is a `HashSet` of
    (path, value) pairs, adding `("a", 1)` to a Document already holding
    `("a", 0)` keeps both pairs: two entries at path `a` remain. -/
theorem c5_add_to_json_keeps_old_entry :
    ((Jsonify.new "\x7b\"a\": 0\x7d").add_to_json "a" (.num 1)).values
      = [("a", ⟨.num 0, "Number"⟩), ("a", ⟨.num 1, "Number"⟩)] := by decide

/-- C6 counterexample: constructing from empty input or from `null` does
    not yield zero entries. -/
theorem c6_counterexample :
    (Jsonify.new "").values ≠ [] ∧ (Jsonify.new "null").values ≠ [] := by decide

/-- C6 (amended): constructing from `{}` yields zero entries; constructing
    from empty input or from `null` yields exactly one entry, at the empty
    path, holding Null with tag "Null"; none of the three is an error. -/
theorem c6_construct_empty_null_obj :
    (Jsonify.new "").values = [("", ⟨.null, "Null"⟩)] ∧
    (Jsonify.new "null").values = [("", ⟨.null, "Null"⟩)] ∧
    (Jsonify.new "\x7b\x7d").values = [] := by decide

/-- C7: merging never removes or alters an existing entry (the for-loop
    only inserts), and merging `{"b": 2}` into a Document holding `a ↦ 1`
    yields a Document containing both `a ↦ 1` and `b ↦ 2`. -/
theorem c7_merge_preserves_existing (d : Jsonify) (t : String)
    (e : String × JsonifyValue) (he : e ∈ d.values) :
    e ∈ (d.merge_json t).values ∧
    ("a", (⟨.num 1, "Number"⟩ : JsonifyValue))
      ∈ ((Jsonify.new "\x7b\"a\": 1\x7d").merge_json "\x7b\"b\": 2\x7d").values ∧
    ("b", (⟨.num 2, "Number"⟩ : JsonifyValue))
      ∈ ((Jsonify.new "\x7b\"a\": 1\x7d").merge_json "\x7b\"b\": 2\x7d").values := by
  refine ⟨?_, by decide, by decide⟩
  simp only [Jsonify.merge_json]
  exact mem_foldl_hsInsert_of_mem he

/-- C7 witness: a preserved entry under a concrete merge. -/
theorem c7_witness :
    ("a", (⟨.num 1, "Number"⟩ : JsonifyValue)) ∈ (Jsonify.new "\x7b\"a\": 1\x7d").values ∧
    ("a", (⟨.num 1, "Number"⟩ : JsonifyValue))
      ∈ ((Jsonify.new "\x7b\"a\": 1\x7d").merge_json "\x7b\"c\": 3\x7d").values :=
  ⟨by decide,
    (c7_merge_preserves_existing (Jsonify.new "\x7b\"a\": 1\x7d") "\x7b\"c\": 3\x7d"
      _ (by decide)).1⟩

/-- C8 counterexample: after merging `{"a": 1}` into a Document built from
    `{"a": 0}` the set holds two entries at path `a`, so two successive
    `remove_from_json("a")` calls both return true, contradicting the
    claim that the second call always returns false. -/
theorem c8_counterexample :
    (((Jsonify.new "\x7b\"a\": 0\x7d").merge_json "\x7b\"a\": 1\x7d").remove_from_json
      "a").1 = true ∧
    ((((Jsonify.new "\x7b\"a\": 0\x7d").merge_json "\x7b\"a\": 1\x7d").remove_from_json
      "a").2.remove_from_json "a").1 = true := by decide

theorem remove_result_eq_has_key (d : Jsonify) (k : String) :
    (d.remove_from_json k).1 = d.has_key k := by
  cases hf : d.values.find? (fun e => e.1 == k) with
  | none =>
    rw [Jsonify.remove_from_json, hf, Jsonify.has_key]
    symm
    apply List.any_eq_false.mpr
    intro x hx
    exact List.find?_eq_none.mp hf x hx
  | some entry =>
    have hpe := List.find?_some hf
    rw [Jsonify.remove_from_json, hf, Jsonify.has_key]
    symm
    exact List.any_eq_true.mpr ⟨entry, List.mem_of_find?_eq_some hf, hpe⟩

theorem remove_of_has_key_false {d : Jsonify} {k : String} (h : d.has_key k = false) :
    d.remove_from_json k = (false, d) := by
  cases hf : d.values.find? (fun e => e.1 == k) with
  | none => rw [Jsonify.remove_from_json, hf]
  | some entry =>
    exfalso
    rw [Jsonify.has_key] at h
    have hpe := List.find?_some hf
    have hany : d.values.any (fun e => e.1 == k) = true :=
      List.any_eq_true.mpr ⟨entry, List.mem_of_find?_eq_some hf, hpe⟩
    rw [hany] at h
    cases h

/-- C8 (amended): `remove(path)` returns true exactly when an entry with
    that path is present and removes exactly one such entry; the second of
    two successive calls returns false provided the Document held at most
    one entry at that path (several entries at one path are reachable, see
    the counterexample). -/
theorem c8_remove_semantics (d : Jsonify) (k : String) :
    ((d.remove_from_json k).1 = d.has_key k) ∧
    (d.has_key k = true →
      (d.remove_from_json k).2.values.countP (fun e => e.1 == k) + 1
        = d.values.countP (fun e => e.1 == k)) ∧
    (d.values.countP (fun e => e.1 == k) ≤ 1 →
      ((d.remove_from_json k).2.remove_from_json k).1 = false) := by
  refine ⟨remove_result_eq_has_key d k, ?_, ?_⟩
  · intro hk
    cases hf : d.values.find? (fun e => e.1 == k) with
    | none =>
      exfalso
      rw [← remove_result_eq_has_key] at hk
      rw [Jsonify.remove_from_json, hf] at hk
      cases hk
    | some entry =>
      have hpe := List.find?_some hf
      simp only [Jsonify.remove_from_json, hf]
      exact countP_erase (List.mem_of_find?_eq_some hf) hpe
  · intro hc
    cases hk : d.has_key k with
    | false =>
      rw [remove_of_has_key_false hk]
      rw [remove_result_eq_has_key]
      exact hk
    | true =>
      cases hf : d.values.find? (fun e => e.1 == k) with
      | none =>
        exfalso
        rw [← remove_result_eq_has_key] at hk
        rw [Jsonify.remove_from_json, hf] at hk
        cases hk
      | some entry =>
        have hpe := List.find?_some hf
        have hdec : (d.values.erase entry).countP (fun e => e.1 == k) + 1
            = d.values.countP (fun e => e.1 == k) :=
          countP_erase (List.mem_of_find?_eq_some hf) hpe
        have hzero : (d.values.erase entry).countP (fun e => e.1 == k) = 0 := by omega
        have hfn : (d.values.erase entry).find? (fun e => e.1 == k) = none :=
          List.find?_eq_none.mpr (List.countP_eq_zero.mp hzero)
        simp only [Jsonify.remove_from_json, hf, hfn]

/-- C8 witness: on a single-entry Document the second removal fails. -/
theorem c8_witness :
    (Jsonify.new "\x7b\"a\": 1\x7d").values.countP (fun e => e.1 == "a") ≤ 1 ∧
    (((Jsonify.new "\x7b\"a\": 1\x7d").remove_from_json "a").2.remove_from_json "a").1
      = false :=
  ⟨by decide, (c8_remove_semantics (Jsonify.new "\x7b\"a\": 1\x7d") "a").2.2 (by decide)⟩

/-- C9 counterexample: `add_to_json` accepts container values, so a
    Document reachable through the public API stores an array-valued entry
    whose tag "Unknown" is not a scalar kind. -/
theorem c9_counterexample :
    ((Jsonify.new "\x7b\x7d").add_to_json "k" (.arr .nil)).values
      = [("k", ⟨.arr .nil, "Unknown"⟩)] ∧
    isScalar (JValue.arr .nil) = false := by decide

/-- C9 (amended): in every Document reachable through the public API in
    which `replace` and `add_to_json` are only handed scalar or null
    values, every stored entry is a scalar or null and its type tag matches
    the value's actual kind. -/
theorem c9_reachable_scalar_tagged (d : Jsonify) (hr : Reachable d)
    (e : String × JsonifyValue) (he : e ∈ d.values) :
    isScalar e.2.value = true ∧ e.2.value_type = typeTag e.2.value :=
  reachable_tagged hr e he

/-- C9 witness: a constructed Document's entry is a tagged scalar. -/
theorem c9_witness :
    ("a", (⟨.num 1, "Number"⟩ : JsonifyValue)) ∈ (Jsonify.new "\x7b\"a\": 1\x7d").values ∧
    (isScalar (JValue.num 1) = true ∧ "Number" = typeTag (JValue.num 1)) :=
  ⟨by decide,
    c9_reachable_scalar_tagged (Jsonify.new "\x7b\"a\": 1\x7d")
      (Reachable.construct "\x7b\"a\": 1\x7d") ("a", ⟨.num 1, "Number"⟩) (by decide)⟩

/-- C10: one `remove_from_json` call removes at most one entry (the found
    one), leaves every other entry unchanged, and when at least two stored
    entries carry the given path the key is still present afterwards. -/
theorem c10_remove_at_most_one (d : Jsonify) (k : String) :
    d.values.length ≤ (d.remove_from_json k).2.values.length + 1 ∧
    (∀ x ∈ (d.remove_from_json k).2.values, x ∈ d.values) ∧
    (∃ e, ∀ x ∈ d.values, x = e ∨ x ∈ (d.remove_from_json k).2.values) ∧
    (2 ≤ d.values.countP (fun e => e.1 == k) →
      (d.remove_from_json k).2.has_key k = true) := by
  cases hf : d.values.find? (fun e => e.1 == k) with
  | none =>
    simp only [Jsonify.remove_from_json, hf]
    refine ⟨by omega, fun x hx => hx, ⟨("", ⟨.null, "Null"⟩), fun x hx => Or.inr hx⟩, ?_⟩
    intro h2
    rw [Jsonify.has_key]
    apply List.any_eq_true.mpr
    have hpos : 0 < d.values.countP (fun e => e.1 == k) := by omega
    exact List.countP_pos_iff.mp hpos
  | some entry =>
    have hpe := List.find?_some hf
    simp only [Jsonify.remove_from_json, hf]
    have hmem : entry ∈ d.values := List.mem_of_find?_eq_some hf
    refine ⟨?_, fun x hx => List.mem_of_mem_erase hx, ⟨entry, ?_⟩, ?_⟩
    · rw [List.length_erase_of_mem hmem]
      have := List.length_pos.mpr (List.ne_nil_of_mem hmem)
      omega
    · intro x hx
      by_cases hxe : x = entry
      · exact Or.inl hxe
      · exact Or.inr ((List.mem_erase_of_ne hxe).mpr hx)
    · intro h2
      have hdec : (d.values.erase entry).countP (fun e => e.1 == k) + 1
          = d.values.countP (fun e => e.1 == k) :=
        countP_erase hmem hpe
      have hpos : 0 < (d.values.erase entry).countP (fun e => e.1 == k) := by omega
      rw [Jsonify.has_key]
      exact List.any_eq_true.mpr (List.countP_pos_iff.mp hpos)

/-- C10 witness: with two entries at path `a`, one removal leaves the key
    present. -/
theorem c10_witness :
    2 ≤ ((Jsonify.new "\x7b\"a\": 0\x7d").merge_json "\x7b\"a\": 1\x7d").values.countP
      (fun e => e.1 == "a") ∧
    ((((Jsonify.new "\x7b\"a\": 0\x7d").merge_json "\x7b\"a\": 1\x7d").remove_from_json
      "a").2.has_key "a") = true :=
  ⟨by decide,
    (c10_remove_at_most_one ((Jsonify.new "\x7b\"a\": 0\x7d").merge_json
      "\x7b\"a\": 1\x7d") "a").2.2.2 (by decide)⟩
